import Mathlib

/-!
Verification of the macro expansion engine in `src/preprocessor/macro.c`
of the lacc C compiler, against its natural-language specification.

The C code is shallowly embedded: END-terminated token arrays become
`List Token` values that by convention carry an explicit `endt` token;
helpers such as `len`, `concat`, `append` and `copy` read their input
only up to the first END token, exactly as the C functions do.  The
tokenizer, the string interner and the line tracker are external
collaborators and enter as parameters (`tfn`, plain `String`s, `line`).
Calls to `error(...); exit(1)` are modelled as `Except.error`; the lone
`error` call without `exit` (in `skip`) is modelled as a diagnostic
counter threaded through the result.
-/

namespace Lacc

/-- Token kind tags.  In the C source, punctuators are identified by
their character codes; here each punctuator relevant to the engine gets
its own constructor, and `punct` covers the remaining ones (which the
engine treats uniformly, comparing spellings). -/
inductive TokKind where
  | ident | number | strlit | param | pasteOp | hashOp
  | lparen | rparen | comma | newline | endt | punct
deriving DecidableEq, Repr

/-- One preprocessing token (`struct token`).  The C token holds a union
`d` of a string payload and a number payload; we keep both fields.  For
`NUMBER`, the type of the value is abstracted to a code `numType`
(`type_equal` becomes equality of codes); the signed and unsigned union
members alias the same bits, so a single `Int` value field suffices for
the equality comparisons performed by the engine. -/
structure Token where
  kind : TokKind
  str : String := ""
  numType : Nat := 0
  numVal : Int := 0
  leading_whitespace : Nat := 0
deriving DecidableEq, Repr

/-- Sentinel token `basic_token[END]`: the sentinel terminating every token list. -/
def endTok : Token := { kind := .endt }

/-- Function `tok_cmp` from macro.c: nonzero (`true`) means the tokens differ.
Kinds are compared first; then `PARAM` compares the numeric payload,
`NUMBER` compares the numeric type and then the value, and every other
kind compares the (interned) string payload. -/
def tok_cmp (a b : Token) : Bool :=
  if a.kind ≠ b.kind then true
  else match a.kind with
    | .param => a.numVal ≠ b.numVal
    | .number =>
        if a.numType ≠ b.numType then true
        else a.numVal ≠ b.numVal
    | _ => a.str ≠ b.str

/-- The data `tok_cmp` actually compares, as a single tuple; two tokens
satisfy `tok_cmp a b = false` iff their keys agree (`tokKey_spec`). -/
def tokKey (t : Token) : TokKind × Int × Nat × String :=
  match t.kind with
  | .param => (t.kind, t.numVal, 0, "")
  | .number => (t.kind, t.numVal, t.numType, "")
  | k => (k, 0, 0, t.str)

theorem tokKey_spec (a b : Token) : tok_cmp a b = false ↔ tokKey a = tokKey b := by
  obtain ⟨ka, sa, nta, nva, la⟩ := a
  obtain ⟨kb, sb, ntb, nvb, lb⟩ := b
  cases ka <;> cases kb <;> simp [tok_cmp, tokKey, and_comm]

theorem tok_cmp_refl (a : Token) : tok_cmp a a = false := by
  rw [tokKey_spec]

/-- Kinds `OBJECT_LIKE` / `FUNCTION_LIKE` of a macro. -/
inductive MacroKind where
  | OBJECT_LIKE | FUNCTION_LIKE
deriving DecidableEq, Repr

/-- Record `struct macro`: a name token, a kind, a parameter count and the
END-free replacement list (the C stores the replacement as a growable
token array without a trailing END). -/
structure Macro where
  name : Token
  type : MacroKind
  params : Nat
  replacement : List Token := []
deriving DecidableEq, Repr

/-- Function `macrocmp` from macro.c: nonzero (`true`) means the macros are not
structurally equivalent.  The index loop over `array_get` on two
equal-length arrays is rendered as a scan of the zipped lists. -/
def macrocmp (a b : Macro) : Bool :=
  if a.type ≠ b.type ∨ a.params ≠ b.params then true
  else if tok_cmp a.name b.name then true
  else if a.replacement.length ≠ b.replacement.length then true
  else (a.replacement.zip b.replacement).any fun p => tok_cmp p.1 p.2

/-- The data `macrocmp` compares, as a tuple. -/
def macroKey (m : Macro) :
    MacroKind × Nat × (TokKind × Int × Nat × String) × List (TokKind × Int × Nat × String) :=
  (m.type, m.params, tokKey m.name, m.replacement.map tokKey)

theorem zip_any_tok_cmp (l1 l2 : List Token) (hlen : l1.length = l2.length) :
    ((l1.zip l2).any fun p => tok_cmp p.1 p.2) = false ↔ l1.map tokKey = l2.map tokKey := by
  induction l1 generalizing l2 with
  | nil =>
    cases l2 with
    | nil => simp
    | cons b bs => simp at hlen
  | cons a as ih =>
    cases l2 with
    | nil => simp at hlen
    | cons b bs =>
      simp only [List.zip_cons_cons, List.any_cons, List.map_cons, Bool.or_eq_false_iff,
        List.cons.injEq]
      rw [ih bs (by simpa using hlen), tokKey_spec]

theorem macroKey_spec (a b : Macro) : macrocmp a b = false ↔ macroKey a = macroKey b := by
  unfold macrocmp macroKey
  simp only [Prod.mk.injEq]
  by_cases h1 : a.type ≠ b.type ∨ a.params ≠ b.params
  · rw [if_pos h1]
    constructor
    · intro hc; simp at hc
    · rintro ⟨ht, hp, -⟩
      rcases h1 with h | h
      exacts [absurd ht h, absurd hp h]
  · rw [if_neg h1]
    push_neg at h1
    obtain ⟨ht, hp⟩ := h1
    cases hn : tok_cmp a.name b.name with
    | true =>
      rw [if_pos rfl]
      constructor
      · intro hc; cases hc
      · rintro ⟨-, -, hname, -⟩
        rw [← tokKey_spec] at hname
        rw [hn] at hname
        cases hname
    | false =>
      rw [if_neg (by simp)]
      by_cases hl : a.replacement.length ≠ b.replacement.length
      · rw [if_pos hl]
        constructor
        · intro hc; cases hc
        · rintro ⟨-, -, -, hrep⟩
          exact absurd (by simpa using congrArg List.length hrep) hl
      · rw [if_neg hl]
        push_neg at hl
        rw [zip_any_tok_cmp _ _ hl]
        have hname : tokKey a.name = tokKey b.name := (tokKey_spec _ _).1 hn
        simp [ht, hp, hname]

theorem macrocmp_refl (m : Macro) : macrocmp m m = false := by
  rw [macroKey_spec]

/-! ## Macro table

The hash table keyed by the interned name string is modelled as an
association list of macros; `hash_lookup` finds the entry whose name
string equals the key, `hash_insert` returns the existing entry if one
is present and otherwise appends a copy (setting `new_macro_added`,
rendered as the `released` flag being `false`). -/

/-- Fatal error kinds.  Each corresponds to an `error(...); exit(1)`
site in macro.c. -/
inductive Err where
  | RedefinitionMismatch
  | PasteAtBoundary
  | InvalidPasteResult
  | UnterminatedInvocation
  | UnbalancedParens
deriving DecidableEq, Repr

def hash_lookup (tbl : List Macro) (key : String) : Option Macro :=
  tbl.find? fun m => m.name.str == key

/-- Result of `define`: the updated table, and whether the incoming
replacement list was released (`new_macro_added == 0`, i.e. an
equivalent macro already existed and the duplicate was discarded). -/
structure DefineResult where
  table : List Macro
  released : Bool
deriving DecidableEq, Repr

/-- Function `define` from macro.c.  `hash_insert` yields the already-stored
macro when the key is present (leaving the table unchanged) and stores
a fresh copy otherwise; the stored reference is then compared with the
argument by `macrocmp`, and a mismatch is the fatal
`RedefinitionMismatch` (`error`, `exit(1)`).  In the fresh case the
comparison macrocmp(copy-of-m, m) also runs in the C; it is reproduced
here even though it can never signal a mismatch. -/
def define (tbl : List Macro) (m : Macro) : Except Err DefineResult :=
  match hash_lookup tbl m.name.str with
  | none =>
      if macrocmp m m then .error .RedefinitionMismatch
      else .ok ⟨tbl ++ [m], false⟩
  | some s =>
      if macrocmp s m then .error .RedefinitionMismatch
      else .ok ⟨tbl, true⟩

/-- Function `undef` from macro.c: remove the mapping when the name token is an
identifier, otherwise do nothing. -/
def undef (tbl : List Macro) (name : Token) : List Macro :=
  if name.kind = .ident then tbl.filter fun m => !(m.name.str == name.str) else tbl

/-- The on-read `__LINE__` rewrite performed by `definition`: when the
stored macro is named `__LINE__`, the numeric payload of the first
replacement token is set to the current line reported by the external
line tracker.  (The C writes through `array_get(&ref->replacement, 0)`;
on an empty replacement list that access is out of bounds, so the empty
case here leaves the list unchanged.) -/
def lineUpdate (line : Int) (m : Macro) : Macro :=
  if m.name.str == "__LINE__" then
    { m with replacement :=
        match m.replacement with
        | [] => []
        | t :: rest => { t with numVal := line } :: rest }
  else m

/-- Function `definition` from macro.c, with the table mutation made explicit:
returns the macro found for an identifier token (with the `__LINE__`
payload refreshed) together with the table after the in-place rewrite. -/
def definitionM (tbl : List Macro) (line : Int) (name : Token) :
    Option Macro × List Macro :=
  if name.kind = .ident then
    match hash_lookup tbl name.str with
    | none => (none, tbl)
    | some m =>
        let m' := lineUpdate line m
        (some m', tbl.map fun x => if x.name.str == m.name.str then m' else x)
  else (none, tbl)

/-- The value component of `definition`.  Inside a single `expand` run
the line number is fixed, so the `__LINE__` in-place rewrite is
idempotent and invisible to later lookups; the expander therefore uses
this stateless reading of `definition`. -/
def definition (tbl : List Macro) (line : Int) (name : Token) : Option Macro :=
  if name.kind = .ident then (hash_lookup tbl name.str).map (lineUpdate line) else none

/-! ## Expansion stack -/

/-- Function `is_macro_expanded`: the expansion stack holds the macros whose
rescan is in progress; membership is tested by `tok_cmp` equality of the
name tokens. -/
def is_macro_expanded (stack : List Macro) (m : Macro) : Bool :=
  stack.any fun other => !(tok_cmp other.name m.name)

/-! ## Token list helpers

C token lists are END-terminated arrays; `len` counts up to the first
END, and `concat`/`append`/`copy` move `len`-prefixes (plus the END)
between buffers.  Content past the first END token is never read by the
engine, so the helpers here drop it. -/

/-- Function `len` from macro.c: number of tokens before the first END. -/
def lenC (l : List Token) : Nat :=
  (l.takeWhile fun t => t.kind != TokKind.endt).length

/-- The tokens before the first END. -/
def takeBody (l : List Token) : List Token :=
  l.takeWhile fun t => t.kind != TokKind.endt

/-- The first END token of the list (the terminator whose fields — in
particular `leading_whitespace` — the C preserves when shuffling
buffers); `endTok` when the list is not END-terminated. -/
def theEnd (l : List Token) : Token :=
  match l.dropWhile fun t => t.kind != TokKind.endt with
  | [] => endTok
  | t :: _ => t

/-- Function `copy` from macro.c: duplicate the first `len + 1` tokens. -/
def copyC (l : List Token) : List Token :=
  l.take (lenC l + 1)

/-- Function `concat` from macro.c: the body of `list` followed by the first
`len + 1` tokens of `other` (whose END becomes the new terminator). -/
def concatC (l other : List Token) : List Token :=
  takeBody l ++ copyC other

/-- Function `append` from macro.c: insert one token in front of the END
terminator of `list`. -/
def appendC (l : List Token) (t : Token) : List Token :=
  takeBody l ++ [t, theEnd l]

/-- Write `leading_whitespace` of the first array slot (the C does this
on the substituted list even when that slot holds the END token). -/
def setHeadLw (lw : Nat) : List Token → List Token
  | [] => []
  | t :: rest => { t with leading_whitespace := lw } :: rest

/-! ## skip and the argument reader -/

/-- Function `skip` from macro.c.  On a mismatch it calls `error` — but, unlike
every other error site in the file, does NOT `exit(1)`: it reports the
diagnostic and advances past the offending token anyway.  The first
component counts the diagnostics emitted (0 or 1).  The empty-list case
is the out-of-buffer situation that cannot arise on END-terminated
input, since `skip` stops inspecting at the END slot itself. -/
def skip (l : List Token) (k : TokKind) : Nat × List Token :=
  match l with
  | [] => (1, [])
  | t :: rest => (if t.kind = k then 0 else 1, rest)

/-- Is the next token a `,` or `)` (the do-while guard of `read_arg`
reads the token after the ones consumed so far; on END-terminated input
the list is nonempty there, and an END token is neither delimiter). -/
def nextIsDelim : List Token → Bool
  | [] => false
  | t :: _ => t.kind == TokKind.comma || t.kind == TokKind.rparen

/-- The do-while loop of `read_arg`.  Each iteration: fail on END
(`Unexpected end of input`), adjust the nesting depth on parentheses and
fail when it would go negative (`Negative nesting depth`), copy the
token into the argument, and continue while the depth is nonzero or the
next token is not a delimiter.  Returns the END-terminated argument and
the unread remainder. -/
def read_argAux : Int → List Token → List Token → Except Err (List Token × List Token)
  | _, _, [] => .error .UnterminatedInvocation
  | nesting, acc, t :: rest =>
    if t.kind = .endt then .error .UnterminatedInvocation
    else if t.kind = .lparen then
      if nesting + 1 ≠ 0 ∨ nextIsDelim rest = false then
        read_argAux (nesting + 1) (acc ++ [t]) rest
      else .ok (acc ++ [t] ++ [endTok], rest)
    else if t.kind = .rparen then
      if nesting - 1 < 0 then .error .UnbalancedParens
      else if nesting - 1 ≠ 0 ∨ nextIsDelim rest = false then
        read_argAux (nesting - 1) (acc ++ [t]) rest
      else .ok (acc ++ [t] ++ [endTok], rest)
    else
      if nesting ≠ 0 ∨ nextIsDelim rest = false then
        read_argAux nesting (acc ++ [t]) rest
      else .ok (acc ++ [t] ++ [endTok], rest)

/-- Function `read_arg` from macro.c. -/
def read_arg (l : List Token) : Except Err (List Token × List Token) :=
  read_argAux 0 [] l

/-- The `for` loop of `read_args`: read `n` arguments, requiring a `,`
(via `skip`) between consecutive ones.  The `Nat` in the result counts
diagnostics emitted by `skip`. -/
def read_argsLoop : Nat → List Token → Except Err (List (List Token) × List Token × Nat)
  | 0, l => .ok ([], l, 0)
  | n + 1, l =>
    match read_arg l with
    | .error e => .error e
    | .ok (a, l1) =>
      if n = 0 then .ok ([a], l1, 0)
      else
        match read_argsLoop n (skip l1 .comma).2 with
        | .error e => .error e
        | .ok (as, l3, ds) => .ok (a :: as, l3, (skip l1 .comma).1 + ds)

/-- Function `read_args` from macro.c: for a FUNCTION_LIKE macro, skip `(`, read
exactly `params` comma-separated arguments, then skip `)`; for an
OBJECT_LIKE macro, consume nothing and return no arguments. -/
def read_args (l : List Token) (m : Macro) :
    Except Err (List (List Token) × List Token × Nat) :=
  if m.type = .FUNCTION_LIKE then
    match read_argsLoop m.params (skip l .lparen).2 with
    | .error e => .error e
    | .ok (as, l2, ds) =>
      .ok (as, (skip l2 .rparen).2, (skip l .lparen).1 + ds + (skip l2 .rparen).1)
  else .ok ([], l, 0)

theorem skip_length_le (l : List Token) (k : TokKind) :
    (skip l k).2.length ≤ l.length := by
  cases l <;> simp [skip]

theorem read_argAux_length_lt (l : List Token) :
    ∀ nesting acc a r, read_argAux nesting acc l = .ok (a, r) →
      r.length < l.length := by
  induction l with
  | nil => intro nesting acc a r h; cases h
  | cons t rest ih =>
    intro nesting acc a r h
    rw [read_argAux] at h
    repeat' split at h
    any_goals exact Nat.lt_succ_of_lt (ih _ _ _ _ h)
    all_goals cases h
    all_goals simp

theorem read_argsLoop_length_le (n : Nat) :
    ∀ l as r d, read_argsLoop n l = .ok (as, r, d) → r.length ≤ l.length := by
  induction n with
  | zero =>
    intro l as r d h
    cases h
    simp
  | succ n ih =>
    intro l as r d h
    rw [read_argsLoop] at h
    cases heq : read_arg l with
    | error e => simp only [heq] at h; cases h
    | ok p =>
      obtain ⟨a, l1⟩ := p
      simp only [heq] at h
      by_cases hn : n = 0
      · rw [if_pos hn] at h
        cases h
        exact le_of_lt (read_argAux_length_lt _ _ _ _ _ heq)
      · rw [if_neg hn] at h
        cases heq2 : read_argsLoop n (skip l1 TokKind.comma).2 with
        | error e => simp only [heq2] at h; cases h
        | ok q =>
          obtain ⟨as2, l3, ds⟩ := q
          simp only [heq2] at h
          cases h
          exact le_trans (le_trans (ih _ _ _ _ heq2) (skip_length_le _ _))
            (le_of_lt (read_argAux_length_lt _ _ _ _ _ heq))

theorem read_args_length_le (l : List Token) (m : Macro) (as : List (List Token))
    (r : List Token) (d : Nat) (h : read_args l m = .ok (as, r, d)) :
    r.length ≤ l.length := by
  rw [read_args] at h
  by_cases hf : m.type = MacroKind.FUNCTION_LIKE
  · rw [if_pos hf] at h
    cases heq : read_argsLoop m.params (skip l TokKind.lparen).2 with
    | error e => simp only [heq] at h; cases h
    | ok q =>
      obtain ⟨as2, l2, ds⟩ := q
      simp only [heq] at h
      cases h
      exact le_trans (le_trans (skip_length_le _ _)
        (read_argsLoop_length_le _ _ _ _ _ heq)) (skip_length_le _ _)
  · rw [if_neg hf] at h
    cases h
    exact le_refl _

/-! ## Stringify -/

/-- Function `tokstr`: the canonical spelling of a token, supplied by the
tokenizer collaborator; tokens carry their spelling in `str`. -/
def tokstr (t : Token) : String := t.str

/-- The loop of `stringify`: walk the list up to END keeping the count
`n` of tokens already emitted; before each token other than the first,
insert a single space iff its `leading_whitespace` is positive. -/
def stringifyAux : Nat → List Token → String
  | _, [] => ""
  | n, t :: rest =>
    if t.kind = .endt then ""
    else
      (if 0 < n ∧ 0 < t.leading_whitespace then " " else "")
        ++ tokstr t ++ stringifyAux (n + 1) rest

/-- Function `stringify` from macro.c: a STRING token whose payload is the
whitespace-normalized concatenation of the spellings. -/
def stringify (l : List Token) : Token :=
  { kind := .strlit, str := stringifyAux 0 l }

/-- Spec reading of the stringify payload (§4.4 of the spec): drop
leading whitespace, and between tokens collapse whitespace to one space
inserted iff the right token's `leading_whitespace > 0` and at least one
token has already been emitted. -/
def stringifySpecPayload : Bool → List Token → String
  | _, [] => ""
  | emitted, t :: rest =>
    if t.kind = .endt then ""
    else
      (if emitted = true ∧ 0 < t.leading_whitespace then " " else "")
        ++ tokstr t ++ stringifySpecPayload true rest

theorem stringifyAux_spec (l : List Token) :
    ∀ (n : Nat) (b : Bool), (0 < n ↔ b = true) →
      stringifyAux n l = stringifySpecPayload b l := by
  induction l with
  | nil => intro n b _; rfl
  | cons t rest ih =>
    intro n b hb
    simp only [stringifyAux, stringifySpecPayload]
    split
    · rfl
    · rw [ih (n + 1) true (by simp)]
      congr 1
      by_cases h : 0 < t.leading_whitespace
      · by_cases hn : 0 < n
        · rw [if_pos ⟨hn, h⟩, if_pos ⟨hb.1 hn, h⟩]
        · rw [if_neg (fun hc => hn hc.1), if_neg (fun hc => hn (hb.2 hc.1))]
      · rw [if_neg (fun hc => h hc.2), if_neg (fun hc => h hc.2)]

/-! ## Paste engine

The tokenizer collaborator `tokenize(data, &endptr)` enters as a
parameter `tfn : String → Token × Nat` returning the decoded token and
the number of characters consumed. -/

/-- Function `paste` from macro.c: concatenate the spellings, re-tokenize, fail
with `InvalidPasteResult` (`error`, `exit(1)`) unless the whole string
was consumed, and stamp the left operand's leading whitespace onto the
produced token. -/
def paste (tfn : String → Token × Nat) (left right : Token) : Except Err Token :=
  if (tfn (left.str ++ right.str)).2 ≠ (left.str ++ right.str).length then
    .error .InvalidPasteResult
  else
    .ok { (tfn (left.str ++ right.str)).1 with
            leading_whitespace := left.leading_whitespace }

/-- The scan loop of `expand_paste_operators`.  `cur` is the token at
the write pointer `ptr`; encountering `##` pastes the following token
into `cur` (so chains fold leftwards into the same slot), any other
token flushes `cur` and becomes the new `cur`, and the END token stops
the scan, terminating the output.  A `##` immediately followed by END is
the fatal `PasteAtBoundary` at end of line. -/
def epoLoop (tfn : String → Token × Nat) (cur : Token) :
    List Token → Except Err (List Token)
  | [] => .ok [cur]
  | t :: rest =>
    if t.kind = .endt then .ok [cur, t]
    else if t.kind = .pasteOp then
      match rest with
      | [] => .error .PasteAtBoundary
      | r :: rest2 =>
        if r.kind = .endt then .error .PasteAtBoundary
        else
          match paste tfn cur r with
          | .error e => .error e
          | .ok cur2 => epoLoop tfn cur2 rest2
    else
      match epoLoop tfn t rest with
      | .error e => .error e
      | .ok out => .ok (cur :: out)

/-- Function `expand_paste_operators` from macro.c: no-op on the empty list, the
fatal `PasteAtBoundary` when the list begins with `##`, otherwise the
scan loop. -/
def expand_paste_operators (tfn : String → Token × Nat) (list : List Token) :
    Except Err (List Token) :=
  match list with
  | [] => .ok []
  | t :: rest =>
    if t.kind = .endt then .ok list
    else if t.kind = .pasteOp then .error .PasteAtBoundary
    else epoLoop tfn t rest

/-! ## Termination measure for the expander

`expand` recurses through `expand_macro`, which pushes the macro being
rewritten onto the expansion stack; a macro already on the stack is
never entered again, so the number of table entries whose name is not
yet blocked strictly decreases on every such push.  That count is the
leading component of the lexicographic termination measure. -/

/-- Number of macro-table entries whose name is not blocked by the
expansion stack. -/
def availCount (tbl stack : List Macro) : Nat :=
  ((tbl.map fun x => tokKey x.name).filter
    fun k => !(stack.any fun o => tokKey o.name == k)).length

/-- Precondition of `push_expand_stack` (asserted in the C): the macro
comes from the table and is not already being expanded. -/
def canPush (tbl stack : List Macro) (m : Macro) : Prop :=
  tokKey m.name ∈ tbl.map (fun x => tokKey x.name) ∧
    is_macro_expanded stack m = false

theorem availCount_push {tbl stack : List Macro} {m : Macro}
    (h : canPush tbl stack m) : availCount tbl (m :: stack) < availCount tbl stack := by
  obtain ⟨hmem, hblk⟩ := h
  unfold availCount
  have hsub : ∀ k, ((m :: stack).any fun o => tokKey o.name == k) = false →
      (stack.any fun o => tokKey o.name == k) = false := by
    intro k hk
    simp only [List.any_cons, Bool.or_eq_false_iff] at hk
    exact hk.2
  have hfilter :
      ((tbl.map fun x => tokKey x.name).filter
        fun k => !((m :: stack).any fun o => tokKey o.name == k)) =
      (((tbl.map fun x => tokKey x.name).filter
        fun k => !(stack.any fun o => tokKey o.name == k)).filter
        fun k => !((m :: stack).any fun o => tokKey o.name == k)) := by
    rw [List.filter_filter]
    apply List.filter_congr
    intro k _
    cases hk : (m :: stack).any fun o => tokKey o.name == k
    · simp [hsub k hk]
    · simp
  rw [hfilter]
  apply List.length_filter_lt_length_iff_exists.2
  refine ⟨tokKey m.name, ?_, ?_⟩
  · rw [List.mem_filter]
    refine ⟨hmem, ?_⟩
    simp only [Bool.not_eq_true']
    unfold is_macro_expanded at hblk
    rw [List.any_eq_false] at hblk ⊢
    intro o ho
    have := hblk o ho
    simp only [Bool.not_eq_true'] at this
    rw [beq_iff_eq]
    intro hkey
    rw [← tokKey_spec] at hkey
    exact this hkey
  · simp

/-! ## The expander -/

/-- Kind of the token at the read pointer (`(list + 1)->token` style
lookahead); END-terminated input is never exhausted, and the `[]` case
stands for the END slot. -/
def headKind : List Token → TokKind
  | [] => .endt
  | t :: _ => t.kind

/-- Access `args[param]`: the C indexes the argument array with the `PARAM`
payload; a well-formed macro keeps every index in range, so the default
covers only out-of-range accesses that the C leaves undefined. -/
def getArg (args : List (List Token)) (i : Int) : List Token :=
  args.getD i.toNat [endTok]

/-- Function `needs_expansion` from macro.c: does the list contain an identifier
whose definition is not blocked by the expansion stack? -/
def needs_expansion (tbl : List Macro) (line : Int) (stack : List Macro) :
    List Token → Bool
  | [] => false
  | t :: rest =>
    if t.kind = .endt then false
    else
      match definition tbl line t with
      | some d =>
          if is_macro_expanded stack d then needs_expansion tbl line stack rest
          else true
      | none => needs_expansion tbl line stack rest

theorem lineUpdate_name (line : Int) (m : Macro) :
    (lineUpdate line m).name = m.name := by
  unfold lineUpdate
  split <;> rfl

theorem definition_mem {tbl : List Macro} {line : Int} {t : Token} {d : Macro}
    (h : definition tbl line t = some d) :
    tokKey d.name ∈ tbl.map fun x => tokKey x.name := by
  unfold definition at h
  by_cases hk : t.kind = TokKind.ident
  · rw [if_pos hk] at h
    rw [Option.map_eq_some'] at h
    obtain ⟨m, hm, hd⟩ := h
    have hmem : m ∈ tbl := List.mem_of_find?_eq_some hm
    have : tokKey d.name = tokKey m.name := by rw [← hd, lineUpdate_name]
    rw [this]
    exact List.mem_map_of_mem (fun x => tokKey x.name) hmem
  · rw [if_neg hk] at h
    cases h

mutual

/-- Function `expand` from macro.c: return the input unchanged when nothing in it
can expand (the optimization contract of §4.7 of the spec), otherwise
scan it with the rewriting loop.  The second result component counts the
diagnostics printed by `skip` without terminating the session. -/
def expand (tbl : List Macro) (line : Int) (tfn : String → Token × Nat)
    (stack : List Macro) (original : List Token) : Except Err (List Token × Nat) :=
  if needs_expansion tbl line stack original then
    expandLoop tbl line tfn stack [endTok] 0 original
  else .ok (original, 0)
termination_by (availCount tbl stack, 1, original.length, 1)

/-- The scan loop of `expand`: emit tokens into `acc` (initially the
lone END), and on an identifier bound to a macro that is not being
expanded — for FUNCTION_LIKE only when followed by `(` — read the
arguments, rewrite the macro, stamp the invocation site's leading
whitespace onto the first slot of the expansion, and concatenate it. -/
def expandLoop (tbl : List Macro) (line : Int) (tfn : String → Token × Nat)
    (stack : List Macro) (acc : List Token) (diags : Nat) :
    List Token → Except Err (List Token × Nat)
  | [] => .ok (acc, diags)
  | t :: rest =>
    if t.kind = .endt then .ok (acc, diags)
    else
      match definition tbl line t with
      | some d =>
        if hcond : is_macro_expanded stack d = false ∧
            (d.type ≠ .FUNCTION_LIKE ∨ headKind rest = .lparen) then
          -- The two guards below always hold (`definition_mem`,
          -- `read_args_length_le`); they are recorded here only to feed
          -- the termination measure, and their else-arms are dead code.
          if hmem : tokKey d.name ∈ tbl.map (fun x => tokKey x.name) then
            match read_args rest d with
            | .error e => .error e
            | .ok (args, rest2, dr) =>
              if hlen : rest2.length ≤ rest.length then
                match expandMacro tbl line tfn stack d ⟨hmem, hcond.1⟩ args with
                | .error e => .error e
                | .ok (expn, dm) =>
                  expandLoop tbl line tfn stack
                    (concatC acc (setHeadLw t.leading_whitespace expn)) (diags + dr + dm) rest2
              else .error .UnterminatedInvocation
          else expandLoop tbl line tfn stack (appendC acc t) diags rest
        else expandLoop tbl line tfn stack (appendC acc t) diags rest
      | none => expandLoop tbl line tfn stack (appendC acc t) diags rest
termination_by l => (availCount tbl stack, 1, l.length, 0)
decreasing_by
  all_goals simp_wf
  all_goals first
    | exact Prod.Lex.right _ (Prod.Lex.left _ _ (by omega))
    | exact Prod.Lex.right _ (Prod.Lex.right _ (Prod.Lex.left _ _ (by omega)))

/-- Function `expand_macro` from macro.c: push the macro, substitute parameters
(expanding a copy of each used argument), stringify `# PARAM` pairs,
run the paste engine, rescan with the macro still on the stack, pop. -/
def expandMacro (tbl : List Macro) (line : Int) (tfn : String → Token × Nat)
    (stack : List Macro) (m : Macro) (hm : canPush tbl stack m)
    (args : List (List Token)) : Except Err (List Token × Nat) :=
  match substLoop tbl line tfn (m :: stack) args [endTok] 0 m.replacement with
  | .error e => .error e
  | .ok (res, d1) =>
    match expand_paste_operators tfn res with
    | .error e => .error e
    | .ok res2 =>
      match expand tbl line tfn (m :: stack) res2 with
      | .error e => .error e
      | .ok (res3, d2) => .ok (res3, d1 + d2)
termination_by (availCount tbl stack, 0, 0, 0)
decreasing_by
  all_goals simp_wf
  all_goals exact Prod.Lex.left _ _ (availCount_push hm)

/-- The replacement-walking loop of `expand_macro` (step 3 of §4.6):
`PARAM` tokens splice in the fully expanded copy of the argument, a `#`
immediately followed by `PARAM` appends the stringified raw argument,
and anything else is appended verbatim. -/
def substLoop (tbl : List Macro) (line : Int) (tfn : String → Token × Nat)
    (stack : List Macro) (args : List (List Token)) (acc : List Token) (diags : Nat) :
    List Token → Except Err (List Token × Nat)
  | [] => .ok (acc, diags)
  | t :: rest =>
    if t.kind = .param then
      match expand tbl line tfn stack (copyC (getArg args t.numVal)) with
      | .error e => .error e
      | .ok (ex, d) =>
          substLoop tbl line tfn stack args (concatC acc ex) (diags + d) rest
    else if t.kind = .hashOp then
      match rest with
      | p :: rest2 =>
        if p.kind = .param then
          substLoop tbl line tfn stack args
            (appendC acc (stringify (getArg args p.numVal))) diags rest2
        else substLoop tbl line tfn stack args (appendC acc t) diags (p :: rest2)
      | [] => substLoop tbl line tfn stack args (appendC acc t) diags []
    else substLoop tbl line tfn stack args (appendC acc t) diags rest
termination_by l => (availCount tbl stack, 2, l.length, 0)
decreasing_by
  all_goals simp_wf
  all_goals first
    | exact Prod.Lex.right _ (Prod.Lex.left _ _ (by omega))
    | exact Prod.Lex.right _ (Prod.Lex.right _ (Prod.Lex.left _ _ (by omega)))

end

/-! ## Concrete fixtures

Sample tokens, macros and tokenizers used by the witnesses and
counterexamples below.  `tfnId` is a tokenizer for which every string is
one identifier token covering the whole input; `tfnOne` decodes a
single-character identifier and stops, leaving the rest unread. -/

def tfnId : String → Token × Nat := fun s => ({ kind := .ident, str := s }, s.length)

def tfnOne : String → Token × Nat := fun s => ({ kind := .ident, str := s.take 1 }, 1)

def tA : Token := { kind := .ident, str := "A" }
def tB : Token := { kind := .ident, str := "B" }
def mA : Macro := { name := tA, type := .OBJECT_LIKE, params := 0, replacement := [tB] }
def mB : Macro := { name := tB, type := .OBJECT_LIKE, params := 0, replacement := [tA] }
def tf : Token := { kind := .ident, str := "f" }
def ta : Token := { kind := .ident, str := "a" }
def tb : Token := { kind := .ident, str := "b" }
def lpTok : Token := { kind := .lparen, str := "(" }
def rpTok : Token := { kind := .rparen, str := ")" }
def commaTok : Token := { kind := .comma, str := "," }
def param0 : Token := { kind := .param, numVal := 0 }
def mF : Macro := { name := tf, type := .FUNCTION_LIKE, params := 1, replacement := [param0] }
def tHello : Token := { kind := .ident, str := "hello" }
def tWorld : Token := { kind := .ident, str := "world", leading_whitespace := 1 }
def tFoo : Token := { kind := .ident, str := "foo" }
def tBar : Token := { kind := .ident, str := "_bar" }
def tC : Token := { kind := .ident, str := "c" }
def pasteTok : Token := { kind := .pasteOp, str := "##" }
def tLINE : Token := { kind := .ident, str := "__LINE__" }
def numTok0 : Token := { kind := .number, str := "0" }
def lineMacro : Macro :=
  { name := tLINE, type := .OBJECT_LIKE, params := 0, replacement := [numTok0] }
def mM1 : Macro :=
  { name := { kind := .ident, str := "M" }, type := .OBJECT_LIKE, params := 0,
    replacement := [ta] }
def mM2 : Macro :=
  { name := { kind := .ident, str := "M" }, type := .OBJECT_LIKE, params := 0,
    replacement := [tb] }

theorem find?_append_left_none {α : Type} (p : α → Bool) (l1 l2 : List α)
    (h : l1.find? p = none) : (l1 ++ l2).find? p = l2.find? p := by
  induction l1 with
  | nil => simp
  | cons a as ih =>
    cases hpa : p a with
    | true =>
      rw [List.find?_cons_of_pos _ hpa] at h
      cases h
    | false =>
      rw [List.find?_cons_of_neg _ (by simp [hpa])] at h
      rw [List.cons_append, List.find?_cons_of_neg _ (by simp [hpa])]
      exact ih h

/-! ## Claims -/

/-- C10: stringifying the empty token list (END sentinel only) succeeds
and yields a STRING token with the empty payload of length zero. -/
theorem c10_stringify_empty :
    stringify [endTok] = { kind := .strlit, str := "" } ∧
      (stringify [endTok]).str.length = 0 :=
  ⟨rfl, rfl⟩

/-- C5: for every NEWLINE-free token list, `stringify` returns a STRING
token whose payload is the concatenation of the spellings, with a single
space before a token iff its `leading_whitespace` is positive and a
token has already been emitted (leading whitespace of the first token is
dropped; trailing whitespace does not exist in the token representation). -/
theorem c5_stringify_normalization (l : List Token)
    (h : ∀ t ∈ l, t.kind ≠ TokKind.newline) :
    (stringify l).kind = .strlit ∧ (stringify l).str = stringifySpecPayload false l := by
  refine ⟨rfl, ?_⟩
  have := stringifyAux_spec l 0 false (by simp)
  simpa [stringify] using this

/-- C5 witness: `STR(hello world)` — stringifying the argument list
`[hello, world‿(one leading space), END]` yields payload "hello world"
with a single interior space. -/
theorem c5_stringify_normalization_witness :
    ((stringify [tHello, tWorld, endTok]).kind = .strlit ∧
      (stringify [tHello, tWorld, endTok]).str =
        stringifySpecPayload false [tHello, tWorld, endTok]) ∧
      (stringify [tHello, tWorld, endTok]).str = "hello world" :=
  ⟨c5_stringify_normalization [tHello, tWorld, endTok] (by decide), rfl⟩

/-- C8: looking up an IDENTIFIER token whose string is `__LINE__` that
is mapped in the table returns the stored macro with its first
replacement token's numeric payload rewritten to the line reported by
the external tracker; lookup of a non-IDENTIFIER token or an unmapped
name returns no macro. -/
theorem c8_definition_line (tbl : List Macro) (line : Int) :
    (∀ name m t rest, name.kind = .ident → name.str = "__LINE__" →
        hash_lookup tbl name.str = some m → m.replacement = t :: rest →
        (definitionM tbl line name).1 =
          some { m with replacement := { t with numVal := line } :: rest }) ∧
      (∀ name, name.kind ≠ TokKind.ident → (definitionM tbl line name).1 = none) ∧
      (∀ name, hash_lookup tbl name.str = none → (definitionM tbl line name).1 = none) := by
  refine ⟨?_, ?_, ?_⟩
  · intro name m t rest hk hs hl hrepl
    have hl' : tbl.find? (fun x => x.name.str == name.str) = some m := hl
    have hpred := List.find?_some hl'
    have hmn : m.name.str = "__LINE__" := by
      simp only [beq_iff_eq] at hpred
      rw [hpred, hs]
    simp only [definitionM, hk, if_true, hl]
    simp [lineUpdate, hmn, hrepl]
  · intro name hk
    simp [definitionM, hk]
  · intro name hl
    by_cases hk : name.kind = TokKind.ident
    · simp [definitionM, hk, hl]
    · simp [definitionM, hk]

/-- C8 witness: with `__LINE__ = [0]` stored and the tracker reporting
17, lookup returns a macro whose first replacement token has payload 17. -/
theorem c8_definition_line_witness :
    (definitionM [lineMacro] 17 tLINE).1 =
      some { lineMacro with replacement := [{ numTok0 with numVal := 17 }] } :=
  (c8_definition_line [lineMacro] 17).1 tLINE lineMacro numTok0 [] rfl rfl (by decide) rfl

/-- C2: defining the same macro twice succeeds silently and releases the
duplicate's replacement list (`released = true` renders the
`new_macro_added == 0` cleanup); defining a structurally different macro
under the same name fails with `RedefinitionMismatch` — the C calls
`error` and `exit(1)`, modelled by `Except.error` aborting the session. -/
theorem c2_define_redefinition (tbl : List Macro) (m m' : Macro) :
    (∀ r, define tbl m = .ok r →
        ∃ r', define r.table m = .ok r' ∧ r'.released = true) ∧
      (m.name = m'.name → macrocmp m m' = true → ∀ r, define tbl m = .ok r →
        define r.table m' = .error .RedefinitionMismatch) := by
  constructor
  · intro r h
    unfold define at h
    cases hl : hash_lookup tbl m.name.str with
    | none =>
      simp only [hl, macrocmp_refl, Bool.false_eq_true, if_false] at h
      cases h
      have hl2 : hash_lookup (tbl ++ [m]) m.name.str = some m := by
        unfold hash_lookup at hl ⊢
        rw [find?_append_left_none _ _ _ hl]
        rw [List.find?_cons_of_pos _ (by simp)]
      refine ⟨⟨tbl ++ [m], true⟩, ?_, rfl⟩
      unfold define
      simp only [hl2, macrocmp_refl, Bool.false_eq_true, if_false]
    | some s =>
      simp only [hl] at h
      cases hms : macrocmp s m with
      | true => rw [hms] at h; simp at h
      | false =>
        rw [hms] at h
        simp only [Bool.false_eq_true, if_false] at h
        cases h
        refine ⟨⟨tbl, true⟩, ?_, rfl⟩
        unfold define
        simp only [hl, hms, Bool.false_eq_true, if_false]
  · intro hname hmm' r h
    unfold define at h
    have hkey : m'.name.str = m.name.str := by rw [hname]
    cases hl : hash_lookup tbl m.name.str with
    | none =>
      simp only [hl, macrocmp_refl, Bool.false_eq_true, if_false] at h
      cases h
      have hl2 : hash_lookup (tbl ++ [m]) m'.name.str = some m := by
        unfold hash_lookup at hl ⊢
        rw [hkey]
        rw [find?_append_left_none _ _ _ hl]
        rw [List.find?_cons_of_pos _ (by simp)]
      unfold define
      simp only [hl2, hmm', if_true]
    | some s =>
      simp only [hl] at h
      cases hms : macrocmp s m with
      | true => rw [hms] at h; simp at h
      | false =>
        rw [hms] at h
        simp only [Bool.false_eq_true, if_false] at h
        cases h
        have hsm' : macrocmp s m' = true := by
          cases hv : macrocmp s m' with
          | true => rfl
          | false =>
            exfalso
            have k1 : macroKey s = macroKey m := (macroKey_spec _ _).1 hms
            have k2 : macroKey s = macroKey m' := (macroKey_spec _ _).1 hv
            have : macrocmp m m' = false := by
              rw [macroKey_spec, ← k1, k2]
            rw [this] at hmm'
            cases hmm'
        have hl2 : hash_lookup tbl m'.name.str = some s := by
          rw [hkey]; exact hl
        unfold define
        simp only [hl2, hsm', if_true]

/-- C2 witness: `define M = [a]` twice succeeds with the duplicate
released; `define M = [a]` then `define M = [b]` fails. -/
theorem c2_define_redefinition_witness :
    (∃ r', define [mM1] mM1 = .ok r' ∧ r'.released = true) ∧
      define [mM1] mM2 = .error .RedefinitionMismatch :=
  ⟨(c2_define_redefinition [] mM1 mM2).1 ⟨[mM1], false⟩ rfl,
   (c2_define_redefinition [] mM1 mM2).2 rfl (by decide) ⟨[mM1], false⟩ rfl⟩

/-- C6 counterexample: the claim says an empty actual argument (the
token after `(` is `)` at zero depth) makes the reader succeed with an
END-only list; in fact `read_arg`'s do-while first consumes the `)`,
drives the nesting depth negative, and the reader fails with
`UnbalancedParens` (`error("Negative nesting depth..."); exit(1)`). -/
theorem c6_counterexample :
    read_args [lpTok, rpTok, endTok] mF = .error .UnbalancedParens := rfl

/-- C6 (amended): an empty argument position is never returned as an
END-only list.  When the token after `(` (or after a separating comma)
at zero depth is `)`, the argument reader fails with `UnbalancedParens`;
when it is `,`, the do-while consumes the comma into the argument
instead of delimiting an empty one. -/
theorem c6_empty_argument (a b c : Token) (rest rest2 : List Token) (m : Macro)
    (ha : a.kind = TokKind.lparen) (hb : b.kind = TokKind.rparen)
    (hm : m.type = MacroKind.FUNCTION_LIKE) (hp : 1 ≤ m.params)
    (hc : c.kind = TokKind.comma) (hd : nextIsDelim rest2 = true) :
    read_args (a :: b :: rest) m = .error .UnbalancedParens ∧
      read_arg (c :: rest2) = .ok ([c, endTok], rest2) := by
  constructor
  · obtain ⟨k, hk⟩ : ∃ k, m.params = k + 1 := by
      cases hmp : m.params with
      | zero => rw [hmp] at hp; cases hp
      | succ k => exact ⟨k, rfl⟩
    unfold read_args
    rw [if_pos hm, hk]
    have hskip : (skip (a :: b :: rest) TokKind.lparen).2 = b :: rest := by
      simp [skip]
    rw [hskip]
    have harg : read_arg (b :: rest) = .error .UnbalancedParens := by
      unfold read_arg read_argAux
      rw [if_neg (by rw [hb]; decide), if_neg (by rw [hb]; decide), if_pos hb,
        if_pos (by decide)]
    unfold read_argsLoop
    rw [harg]
  · unfold read_arg read_argAux
    rw [if_neg (by rw [hc]; decide), if_neg (by rw [hc]; decide),
      if_neg (by rw [hc]; decide), if_neg (by simp [hd])]
    simp

/-- C6 witness for the amended claim, at `F(x) = [x]` with inputs
`( ) END` and `, ) END`. -/
theorem c6_empty_argument_witness :
    read_args [lpTok, rpTok, endTok] mF = .error .UnbalancedParens ∧
      read_arg [commaTok, rpTok, endTok] = .ok ([commaTok, endTok], [rpTok, endTok]) :=
  c6_empty_argument lpTok rpTok commaTok [endTok] [rpTok, endTok] mF rfl rfl rfl
    (by decide) rfl (by decide)

theorem epo_cons (tfn : String → Token × Nat) (t : Token) (l : List Token)
    (h1 : t.kind ≠ TokKind.endt) (h2 : t.kind ≠ TokKind.pasteOp) :
    expand_paste_operators tfn (t :: l) = epoLoop tfn t l := by
  simp [expand_paste_operators, h1, h2]

theorem epo_paste_head (tfn : String → Token × Nat) (t : Token) (l : List Token)
    (h : t.kind = TokKind.pasteOp) :
    expand_paste_operators tfn (t :: l) = .error .PasteAtBoundary := by
  simp [expand_paste_operators, h]

theorem epoLoop_end (tfn : String → Token × Nat) (cur t : Token) (l : List Token)
    (h : t.kind = TokKind.endt) :
    epoLoop tfn cur (t :: l) = .ok [cur, t] := by
  cases l with
  | nil => simp [epoLoop, h]
  | cons t2 l2 => simp [epoLoop, h]

theorem epoLoop_paste_end (tfn : String → Token × Nat) (cur p e : Token)
    (l : List Token) (hp : p.kind = TokKind.pasteOp) (he : e.kind = TokKind.endt) :
    epoLoop tfn cur (p :: e :: l) = .error .PasteAtBoundary := by
  simp [epoLoop, hp, he]

theorem epoLoop_paste_step (tfn : String → Token × Nat) (cur p r cur2 : Token)
    (l : List Token) (hp : p.kind = TokKind.pasteOp) (hr : r.kind ≠ TokKind.endt)
    (hres : paste tfn cur r = .ok cur2) :
    epoLoop tfn cur (p :: r :: l) = epoLoop tfn cur2 l := by
  simp [epoLoop, hp, hr, hres]

theorem epoLoop_paste_err (tfn : String → Token × Nat) (cur p r : Token)
    (l : List Token) (er : Err) (hp : p.kind = TokKind.pasteOp)
    (hr : r.kind ≠ TokKind.endt) (hres : paste tfn cur r = .error er) :
    epoLoop tfn cur (p :: r :: l) = .error er := by
  simp [epoLoop, hp, hr, hres]

/-- C7 counterexample: the claim says every list whose last non-END
token is `TOKEN_PASTE` fails with `PasteAtBoundary`.  On
`[foo, ##, ##, END]` the scan instead consumes the second `##` as the
right operand of the first: with a tokenizer that reads `foo##` as one
token the engine succeeds and returns a list, and no `PasteAtBoundary`
is raised. -/
theorem c7_counterexample :
    expand_paste_operators tfnId [tFoo, pasteTok, pasteTok, endTok] =
      .ok [{ kind := .ident, str := "foo##" }, endTok] := rfl

/-- C7 (amended): `PasteAtBoundary` is raised when the list begins with
`TOKEN_PASTE`, and when a `TOKEN_PASTE` reached in operator position is
immediately followed by END; a trailing `TOKEN_PASTE` consumed as a
right operand is pasted like an ordinary token instead.
`InvalidPasteResult` is raised whenever re-tokenizing the concatenated
spellings leaves unconsumed characters.  In every error case the C exits
with status 1 and no list is produced (`Except.error`). -/
theorem c7_paste_errors (tfn : String → Token × Nat) (t x p b e : Token)
    (rest : List Token) :
    (t.kind = TokKind.pasteOp → ∀ l, expand_paste_operators tfn (t :: l) =
        .error .PasteAtBoundary) ∧
      (x.kind ≠ TokKind.endt → x.kind ≠ TokKind.pasteOp → p.kind = TokKind.pasteOp →
        e.kind = TokKind.endt →
        expand_paste_operators tfn (x :: p :: e :: rest) = .error .PasteAtBoundary) ∧
      (x.kind ≠ TokKind.endt → x.kind ≠ TokKind.pasteOp → p.kind = TokKind.pasteOp →
        b.kind ≠ TokKind.endt →
        (tfn (x.str ++ b.str)).2 ≠ (x.str ++ b.str).length →
        expand_paste_operators tfn (x :: p :: b :: rest) = .error .InvalidPasteResult) := by
  refine ⟨?_, ?_, ?_⟩
  · intro ht l
    exact epo_paste_head tfn t l ht
  · intro hx1 hx2 hp he
    rw [epo_cons tfn x _ hx1 hx2]
    exact epoLoop_paste_end tfn x p e rest hp he
  · intro hx1 hx2 hp hb htfn
    rw [epo_cons tfn x _ hx1 hx2]
    have hpaste : paste tfn x b = .error .InvalidPasteResult := by
      unfold paste
      rw [if_pos htfn]
    exact epoLoop_paste_err tfn x p b rest _ hp hb hpaste

/-- C7 witness for the amended claim: a leading `##`, a trailing `##`
after an operand, and a paste whose re-tokenization stops after one
character. -/
theorem c7_paste_errors_witness :
    expand_paste_operators tfnId [pasteTok, tFoo, endTok] = .error .PasteAtBoundary ∧
      expand_paste_operators tfnId [tFoo, pasteTok, endTok] = .error .PasteAtBoundary ∧
      expand_paste_operators tfnOne [tFoo, pasteTok, tBar, endTok] =
        .error .InvalidPasteResult :=
  ⟨(c7_paste_errors tfnId pasteTok tFoo pasteTok tBar endTok []).1 rfl [tFoo, endTok],
   (c7_paste_errors tfnId pasteTok tFoo pasteTok tBar endTok []).2.1 (by decide) (by decide)
     rfl rfl,
   (c7_paste_errors tfnOne pasteTok tFoo pasteTok tBar endTok []).2.2 (by decide) (by decide)
     rfl (by decide) (by decide)⟩

/-- C4: a `left ## right` triple (operands neither END nor `##`) is
replaced by the single token obtained by re-tokenizing the concatenation
of the two spellings, carrying `left`'s leading whitespace, and the scan
continues with the pasted token in place of the triple, so a chain
`a ## b ## c` folds left-to-right as `((a ## b) ## c)`. -/
theorem c4_paste_semantics (tfn : String → Token × Nat) (a b c p p' ab abc : Token)
    (rest : List Token)
    (ha1 : a.kind ≠ TokKind.endt) (ha2 : a.kind ≠ TokKind.pasteOp)
    (hb : b.kind ≠ TokKind.endt) (hc : c.kind ≠ TokKind.endt)
    (hp : p.kind = TokKind.pasteOp) (hp' : p'.kind = TokKind.pasteOp)
    (hab : paste tfn a b = .ok ab)
    (hab1 : ab.kind ≠ TokKind.endt) (hab2 : ab.kind ≠ TokKind.pasteOp)
    (habc : paste tfn ab c = .ok abc) :
    expand_paste_operators tfn (a :: p :: b :: rest) =
        expand_paste_operators tfn (ab :: rest) ∧
      ab = { (tfn (a.str ++ b.str)).1 with leading_whitespace := a.leading_whitespace } ∧
      ab.leading_whitespace = a.leading_whitespace ∧
      expand_paste_operators tfn [a, p, b, p', c, endTok] = .ok [abc, endTok] := by
  have habv : ab = { (tfn (a.str ++ b.str)).1 with
      leading_whitespace := a.leading_whitespace } := by
    unfold paste at hab
    by_cases hcons : (tfn (a.str ++ b.str)).2 ≠ (a.str ++ b.str).length
    · rw [if_pos hcons] at hab
      cases hab
    · rw [if_neg hcons] at hab
      cases hab
      rfl
  refine ⟨?_, habv, by rw [habv], ?_⟩
  · rw [epo_cons tfn a _ ha1 ha2, epo_cons tfn ab _ hab1 hab2]
    exact epoLoop_paste_step tfn a p b ab rest hp hb hab
  · rw [epo_cons tfn a _ ha1 ha2,
      epoLoop_paste_step tfn a p b ab (p' :: c :: [endTok]) hp hb hab,
      epoLoop_paste_step tfn ab p' c abc [endTok] hp' hc habc,
      epoLoop_end tfn abc endTok [] rfl]

/-- C4 witness: `CAT(foo, _bar)`-style paste — `foo ## _bar` becomes the
single identifier `foo_bar`, and `foo ## _bar ## c` folds to
`foo_barc`. -/
theorem c4_paste_semantics_witness :
    (expand_paste_operators tfnId [tFoo, pasteTok, tBar, ta, endTok] =
        expand_paste_operators tfnId [{ kind := .ident, str := "foo_bar" }, ta, endTok]) ∧
      ({ kind := .ident, str := "foo_bar" } : Token) =
        { (tfnId ("foo" ++ "_bar")).1 with leading_whitespace := tFoo.leading_whitespace } ∧
      ({ kind := .ident, str := "foo_bar" } : Token).leading_whitespace =
        tFoo.leading_whitespace ∧
      expand_paste_operators tfnId [tFoo, pasteTok, tBar, pasteTok, tC, endTok] =
        .ok [{ kind := .ident, str := "foo_barc" }, endTok] := by
  have h := c4_paste_semantics tfnId tFoo tBar tC pasteTok pasteTok
    { kind := .ident, str := "foo_bar" } { kind := .ident, str := "foo_barc" }
    [ta, endTok] (by decide) (by decide) (by decide) (by decide) rfl rfl
    rfl (by decide) (by decide) rfl
  exact ⟨h.1, h.2.1, h.2.2.1, h.2.2.2⟩

/-- C1: `expand` always terminates and yields a value, on every macro
table — including cyclic ones such as `A := B`, `B := A`.  Termination
is the well-foundedness of the definition itself: every pass through
`expand_macro` pushes a table macro not yet on the expansion stack, so
the count of unblocked table names (`availCount`) strictly decreases,
and within one stack the scan consumes its input list.  A macro whose
name is on the stack is never expanded again: when everything in the
list is blocked, `expand` returns its input unchanged (second conjunct);
the third conjunct runs the `A := B := A` cycle to completion, with the
inner rescan of `A` blocked by the stack so that the result is again
`A`. -/
theorem c1_expand_terminates (tbl : List Macro) (line : Int)
    (tfn : String → Token × Nat) (stack : List Macro) (l : List Token) :
    (∃ r, expand tbl line tfn stack l = r) ∧
      (needs_expansion tbl line stack l = false →
        expand tbl line tfn stack l = .ok (l, 0)) ∧
      expand [mA, mB] 0 tfnId [] [tA, endTok] = .ok ([tA, endTok], 0) := by
  refine ⟨⟨_, rfl⟩, fun h => ?_, ?_⟩
  · rw [expand, if_neg (by simp [h])]
  · simp +decide [expand, expandLoop, expandMacro, substLoop, needs_expansion, definition,
      hash_lookup, is_macro_expanded, tok_cmp, read_args, lineUpdate, concatC, appendC,
      copyC, takeBody, lenC, theEnd, setHeadLw, getArg, headKind, endTok, tA, tB, mA, mB,
      tfnId, expand_paste_operators, epoLoop, read_argsLoop, skip, tokKey, canPush,
      List.find?_cons_of_pos, List.find?_cons_of_neg, List.find?_nil,
      List.takeWhile, List.dropWhile, List.any, List.take, List.getD]

/-- C1 witness: with both `A` and `B` already on the expansion stack,
nothing in `[A]` may expand and `expand` returns its input unchanged. -/
theorem c1_expand_terminates_witness :
    expand [mA, mB] 0 tfnId [mA, mB] [tA, endTok] = .ok ([tA, endTok], 0) :=
  (c1_expand_terminates [mA, mB] 0 tfnId [mA, mB] [tA, endTok]).2.1 (by decide)

/-- C3 counterexample: `expand` is not idempotent.  With
`f(x) := x` and input `f(f)(a)`, the first `expand` yields `f (a)` —
the inner `f` emitted from the argument is blocked during the rewrite
and the following `(a)` is appended verbatim, never rescanned together —
and a second `expand` contracts it further to `a`. -/
theorem c3_counterexample :
    expand [mF] 0 tfnId [] [tf, lpTok, tf, rpTok, lpTok, ta, rpTok, endTok] =
        .ok ([tf, lpTok, ta, rpTok, endTok], 0) ∧
      expand [mF] 0 tfnId [] [tf, lpTok, ta, rpTok, endTok] = .ok ([ta, endTok], 0) ∧
      ([tf, lpTok, ta, rpTok, endTok] : List Token) ≠ [ta, endTok] := by
  refine ⟨?_, ?_, by decide⟩ <;>
    simp +decide [expand, expandLoop, expandMacro, substLoop, needs_expansion, definition,
      hash_lookup, is_macro_expanded, tok_cmp, read_args, lineUpdate, concatC, appendC,
      copyC, takeBody, lenC, theEnd, setHeadLw, getArg, headKind, endTok, tf, ta, tb,
      lpTok, rpTok, commaTok, param0, mF, tfnId, expand_paste_operators, epoLoop,
      read_argsLoop, read_arg, read_argAux, nextIsDelim, skip, tokKey, canPush,
      List.find?_cons_of_pos, List.find?_cons_of_neg, List.find?_nil,
      List.takeWhile, List.dropWhile, List.any, List.take, List.getD]

/-- C3 (amended): the second call is a no-op exactly in the situation
the spec's justification describes — when nothing in the result of the
first call can still expand (`needs_expansion` is false on it with an
empty stack), `expand` returns it unchanged; without that proviso
idempotence fails (see the counterexample `f(f)(a)`). -/
theorem c3_expand_second_noop (tbl : List Macro) (line : Int)
    (tfn : String → Token × Nat) (x l' : List Token) (d : Nat)
    (h1 : expand tbl line tfn [] x = .ok (l', d))
    (h2 : needs_expansion tbl line [] l' = false) :
    expand tbl line tfn [] l' = .ok (l', 0) := by
  rw [expand, if_neg (by simp [h2])]

/-- C3 witness for the amended claim: `expand` of `[a]` (no macro named
`a`) settles immediately, and reapplying `expand` to the result is a
no-op. -/
theorem c3_expand_second_noop_witness :
    expand [mF] 0 tfnId [] [ta, endTok] = .ok ([ta, endTok], 0) :=
  c3_expand_second_noop [mF] 0 tfnId [ta, endTok] [ta, endTok] 0
    (by rw [expand, if_neg (by decide)]) (by decide)

/-- C9: the claim (and spec §7) says a `skip` mismatch — missing comma
between arguments or missing `)` after the last — is fatal: one
diagnostic, then session termination with no further expansion.  The
code's `skip` calls `error(...)` but, alone among the error sites in
macro.c, omits `exit(1)`: it reports the diagnostic, steps over the
offending token anyway, and expansion continues and returns a list.
With `f(x) := x`, input `f(a, b)` produces the diagnostic (count 1) and
the engine still returns the rewritten list `a b )`. -/
theorem c9_skip_diagnostic_not_fatal :
    skip [commaTok, tb] TokKind.rparen = (1, [tb]) ∧
      expand [mF] 0 tfnId [] [tf, lpTok, ta, commaTok, tb, rpTok, endTok] =
        .ok ([ta, tb, rpTok, endTok], 1) := by
  refine ⟨rfl, ?_⟩
  simp +decide [expand, expandLoop, expandMacro, substLoop, needs_expansion, definition,
    hash_lookup, is_macro_expanded, tok_cmp, read_args, lineUpdate, concatC, appendC,
    copyC, takeBody, lenC, theEnd, setHeadLw, getArg, headKind, endTok, tf, ta, tb,
    lpTok, rpTok, commaTok, param0, mF, tfnId, expand_paste_operators, epoLoop,
    read_argsLoop, read_arg, read_argAux, nextIsDelim, skip, tokKey, canPush,
    List.find?_cons_of_pos, List.find?_cons_of_neg, List.find?_nil,
    List.takeWhile, List.dropWhile, List.any, List.take, List.getD]

end Lacc
